import Mathlib

/-!
Verification of the resource-tree service of AI-CloudOps
(`internal/tree/api/handler.go`): a shallow embedding of the Tree Builder,
the Descendant Resolver (`getChildrenTreeNodeIds`), the Node Lifecycle
Guard (`CreateTreeNode` / `DeleteTreeNode`), resource deletion
(`DeleteEcsResource`), leaf listing (`ListLeafTreeNodes`) and scoped
resource aggregation (`GetAllResourcesByType`), together with theorems
settling the specification claims about them.

Go machine integers are modelled as `Int`; the persistence-backed stores
(DAO layer, an external collaborator whose implementation is not among the
sources) are modelled as in-memory lists, with their operations modelled
from the spec where noted.  The Go recursion of the resolver is embedded
with an explicit fuel argument bounding the call-stack depth: a `none`
result means the recursion did not finish within the given depth, so
non-termination of the Go code is `none` for every fuel.
-/

namespace AICloudOps

/-- `model.TreeNode`, restricted to the persisted fields the tree service
reads: identity `ID`, parent id `Pid` (0 = root), depth `Level`, the leaf
flag `IsLeaf` (compared against 1 in the Go code, hence an integer), and
the ids of bound ECS resources `BindEcs`.  The transient display fields
(`Key`, `Value`, `Children`) are computed per-request and are represented
by the functions below rather than stored. -/
structure TreeNode where
  ID : Int
  Pid : Int
  Level : Int
  IsLeaf : Int
  BindEcs : List Int
deriving DecidableEq

/-- The `nodeMap` of `getChildrenTreeNodeIds` (handler.go:974-979): a Go map
keyed by `node.ID`, where a later insert overwrites an earlier one — hence
lookup finds the last node of the list with the given id. -/
def nodeMapLookup (nodes : List TreeNode) (id : Int) : Option TreeNode :=
  nodes.reverse.find? (fun n => n.ID == id)

/-- The `childrenMap` of `getChildrenTreeNodeIds` (handler.go:975-979):
every node is appended under its `Pid` key, preserving list order. -/
def dfsChildrenOf (nodes : List TreeNode) (pid : Int) : List TreeNode :=
  nodes.filter (fun n => n.Pid == pid)

/-- The recursive `dfs` closure of `getChildrenTreeNodeIds`
(handler.go:983-998), with an explicit fuel bound on recursion depth:
if the start id is absent from the node map the accumulator is returned
unchanged; a leaf contributes its id; a non-leaf recurses into every child
from the children map.  There is no revisit guard, exactly as in the source.
`none` means the recursion exceeded the fuel. -/
def dfsFuel (nodes : List TreeNode) : Nat → Int → Finset Int → Option (Finset Int)
  | 0, _, _ => none
  | fuel + 1, nodeId, acc =>
    match nodeMapLookup nodes nodeId with
    | none => some acc
    | some node =>
      if node.IsLeaf = 1 then some (insert node.ID acc)
      else
        (dfsChildrenOf nodes nodeId).foldl
          (fun oacc c => oacc.bind (fun a => dfsFuel nodes fuel c.ID a)) (some acc)

/-- `getChildrenTreeNodeIds` (handler.go:967-1003) on an already fetched
node list: run the dfs from `nid` with an empty result set. -/
def getChildrenTreeNodeIds (nodes : List TreeNode) (nid : Int) (fuel : Nat) :
    Option (Finset Int) :=
  dfsFuel nodes fuel nid ∅

theorem nodeMapLookup_mem {nodes : List TreeNode} {id : Int} {n : TreeNode}
    (h : nodeMapLookup nodes id = some n) : n ∈ nodes ∧ n.ID = id := by
  unfold nodeMapLookup at h
  have hm := List.mem_of_find?_eq_some h
  have hp := List.find?_some h
  rw [List.mem_reverse] at hm
  exact ⟨hm, by simpa using hp⟩

theorem nodeMapLookup_none {nodes : List TreeNode} {id : Int}
    (h : nodeMapLookup nodes id = none) : ∀ n ∈ nodes, n.ID ≠ id := by
  unfold nodeMapLookup at h
  rw [List.find?_eq_none] at h
  intro n hn
  have := h n (List.mem_reverse.mpr hn)
  simpa using this

theorem nodeMapLookup_present {nodes : List TreeNode} {id : Int}
    (h : ∃ n ∈ nodes, n.ID = id) : ∃ m, nodeMapLookup nodes id = some m := by
  cases hlk : nodeMapLookup nodes id with
  | some m => exact ⟨m, rfl⟩
  | none =>
    obtain ⟨n, hn, hid⟩ := h
    exact absurd hid (nodeMapLookup_none hlk n hn)

theorem mem_dfsChildrenOf {nodes : List TreeNode} {pid : Int} {c : TreeNode} :
    c ∈ dfsChildrenOf nodes pid ↔ c ∈ nodes ∧ c.Pid = pid := by
  unfold dfsChildrenOf
  rw [List.mem_filter]
  simp

/-- Spec-side reachability (the refinement target of §4.2): node id `i` is
reachable from the subtree root id `r` when `i = r` or there is a chain of
child steps from `r` to `i`, each step going from a node id `p` that is
present in the list to a node of the list whose `Pid` is `p`. -/
inductive SpecReach (nodes : List TreeNode) : Int → Int → Prop where
  | refl (r : Int) : SpecReach nodes r r
  | step {r p : Int} (c : TreeNode) : SpecReach nodes r p → (∃ np ∈ nodes, np.ID = p) →
      c ∈ nodes → c.Pid = p → SpecReach nodes r c.ID

/-- Spec-side leaf predicate: `i` is the id of a leaf node of the list. -/
def SpecIsLeafId (nodes : List TreeNode) (i : Int) : Prop :=
  ∃ n ∈ nodes, n.ID = i ∧ n.IsLeaf = 1

theorem SpecReach.trans {nodes : List TreeNode} {a b i : Int}
    (h1 : SpecReach nodes a b) (h2 : SpecReach nodes b i) : SpecReach nodes a i := by
  induction h2 with
  | refl => exact h1
  | step c _ hp hc hpid ih => exact SpecReach.step c ih hp hc hpid

theorem SpecReach.of_absent {nodes : List TreeNode} {r i : Int}
    (habs : ∀ n ∈ nodes, n.ID ≠ r) (h : SpecReach nodes r i) : i = r := by
  induction h with
  | refl => rfl
  | step c _ hp _ _ ih =>
    obtain ⟨np, hnp, hid⟩ := hp
    exact absurd (hid.trans ih) (habs np hnp)

theorem SpecReach.head_cases {nodes : List TreeNode} {r i : Int} (h : SpecReach nodes r i) :
    i = r ∨ ∃ c ∈ nodes, c.Pid = r ∧ (∃ nr ∈ nodes, nr.ID = r) ∧ SpecReach nodes c.ID i := by
  induction h with
  | refl => exact Or.inl rfl
  | step c hr hp hc hpid ih =>
    rcases ih with rfl | ⟨c0, hc0, hc0p, hpres, hreach⟩
    · exact Or.inr ⟨c, hc, hpid, hp, SpecReach.refl c.ID⟩
    · exact Or.inr ⟨c0, hc0, hc0p, hpres, SpecReach.step c hreach hp hc hpid⟩

theorem nodup_id_unique {nodes : List TreeNode} (hnd : (nodes.map TreeNode.ID).Nodup)
    {a b : TreeNode} (ha : a ∈ nodes) (hb : b ∈ nodes) (h : a.ID = b.ID) : a = b :=
  List.inj_on_of_nodup_map hnd ha hb h

/-- Characterization of the dfs of `getChildrenTreeNodeIds` on well-formed
data: distinct ids, acyclicity witnessed by a rank function that decreases
from parent to child, leaves without children.  With fuel exceeding the
rank of the start node the traversal terminates, and its result extends the
accumulator by exactly the reachable leaf ids. -/
theorem dfs_spec (nodes : List TreeNode) (rank : Int → Nat)
    (hnd : (nodes.map TreeNode.ID).Nodup)
    (hacyc : ∀ c ∈ nodes, ∀ p ∈ nodes, c.Pid = p.ID → rank c.ID < rank p.ID)
    (hleaf : ∀ p ∈ nodes, p.IsLeaf = 1 → ∀ c ∈ nodes, c.Pid ≠ p.ID) :
    ∀ fuel nid acc, 0 < fuel → (∀ n ∈ nodes, n.ID = nid → rank nid < fuel) →
      ∃ s, dfsFuel nodes fuel nid acc = some s ∧
        ∀ i, i ∈ s ↔ i ∈ acc ∨ (SpecReach nodes nid i ∧ SpecIsLeafId nodes i) := by
  intro fuel
  induction fuel with
  | zero => intro nid acc h0 _; omega
  | succ f ih =>
    intro nid acc _ hbound
    cases hlk : nodeMapLookup nodes nid with
    | none =>
      have habs : ∀ n ∈ nodes, n.ID ≠ nid := nodeMapLookup_none hlk
      refine ⟨acc, by simp [dfsFuel, hlk], fun i => ?_⟩
      constructor
      · exact Or.inl
      · rintro (h | ⟨hr, m, hm, hmi, _⟩)
        · exact h
        · exact absurd (hmi.trans (hr.of_absent habs)) (habs m hm)
    | some node =>
      obtain ⟨hmem, hid⟩ := nodeMapLookup_mem hlk
      by_cases hlf : node.IsLeaf = 1
      · refine ⟨insert node.ID acc, by simp [dfsFuel, hlk, hlf], fun i => ?_⟩
        rw [Finset.mem_insert]
        constructor
        · rintro (rfl | h)
          · exact Or.inr ⟨by rw [hid]; exact SpecReach.refl nid, node, hmem, rfl, hlf⟩
          · exact Or.inl h
        · rintro (h | ⟨hr, m, hm, hmi, hml⟩)
          · exact Or.inr h
          · rcases hr.head_cases with rfl | ⟨c, hc, hcp, -, -⟩
            · exact Or.inl hid.symm
            · exact absurd (hcp.trans hid.symm) (hleaf node hmem hlf c hc)
      · have hrank : rank nid < f + 1 := hbound node hmem hid
        have hfold : ∀ (cs : List TreeNode) (a0 : Finset Int),
            (∀ c ∈ cs, c ∈ nodes ∧ rank c.ID < f) →
            ∃ s, cs.foldl (fun oacc c => oacc.bind (fun a => dfsFuel nodes f c.ID a))
                (some a0) = some s ∧
              ∀ i, i ∈ s ↔ i ∈ a0 ∨ ∃ c ∈ cs, SpecReach nodes c.ID i ∧ SpecIsLeafId nodes i := by
          intro cs
          induction cs with
          | nil => exact fun a0 _ => ⟨a0, rfl, by simp⟩
          | cons c cs ihc =>
            intro a0 hcs
            obtain ⟨hcmem, hcrank⟩ := hcs c (List.mem_cons_self c cs)
            have h0f : 0 < f := Nat.lt_of_le_of_lt (Nat.zero_le _) hcrank
            obtain ⟨s1, hs1, hchar1⟩ := ih c.ID a0 h0f (fun _ _ _ => hcrank)
            obtain ⟨s, hs, hchar⟩ := ihc s1 (fun x hx => hcs x (List.mem_cons_of_mem c hx))
            refine ⟨s, ?_, fun i => ?_⟩
            · rw [List.foldl_cons]
              have hb1 : ((some a0).bind fun a => dfsFuel nodes f c.ID a) = some s1 := by
                simpa using hs1
              rw [hb1]
              exact hs
            · rw [hchar i, hchar1 i]
              constructor
              · rintro ((h | h) | ⟨c1, hc1, hh⟩)
                · exact Or.inl h
                · exact Or.inr ⟨c, List.mem_cons_self c cs, h⟩
                · exact Or.inr ⟨c1, List.mem_cons_of_mem c hc1, hh⟩
              · rintro (h | ⟨c1, hc1, hh⟩)
                · exact Or.inl (Or.inl h)
                · rcases List.mem_cons.mp hc1 with rfl | hc1m
                  · exact Or.inl (Or.inr hh)
                  · exact Or.inr ⟨c1, hc1m, hh⟩
        have hchildren : ∀ c ∈ dfsChildrenOf nodes nid, c ∈ nodes ∧ rank c.ID < f := by
          intro c hcm
          obtain ⟨hcn, hcp⟩ := mem_dfsChildrenOf.mp hcm
          have hlt : rank c.ID < rank nid := by
            have := hacyc c hcn node hmem (hcp.trans hid.symm)
            rwa [hid] at this
          exact ⟨hcn, by omega⟩
        obtain ⟨s, hs, hchar⟩ := hfold (dfsChildrenOf nodes nid) acc hchildren
        refine ⟨s, ?_, fun i => ?_⟩
        · simp only [dfsFuel, hlk, if_neg hlf]
          exact hs
        · rw [hchar i]
          constructor
          · rintro (h | ⟨c, hcm, hcr, hcl⟩)
            · exact Or.inl h
            · obtain ⟨hcn, hcp⟩ := mem_dfsChildrenOf.mp hcm
              refine Or.inr ⟨?_, hcl⟩
              have h1 : SpecReach nodes nid c.ID :=
                SpecReach.step c (SpecReach.refl nid) ⟨node, hmem, hid⟩ hcn hcp
              exact h1.trans hcr
          · rintro (h | ⟨hr, hl⟩)
            · exact Or.inl h
            · rcases hr.head_cases with rfl | ⟨c, hcn, hcp, -, hreach⟩
              · obtain ⟨m, hm, hmi, hml⟩ := hl
                have hmn : m = node := nodup_id_unique hnd hm hmem (hmi.trans hid.symm)
                exact absurd (hmn ▸ hml) hlf
              · exact Or.inr ⟨c, mem_dfsChildrenOf.mpr ⟨hcn, hcp⟩, hreach, hl⟩

/-- C1: for every flat node set whose leaf flags and parent links are
well-formed (distinct ids — hence a single parent per node —, acyclicity
witnessed by a rank decreasing from parent to child, leaves without
children) and every root id `r`, `getChildrenTreeNodeIds` terminates
(given stack depth beyond every rank) and returns exactly the set of leaf
node ids reachable from `r`, `r` itself included when it is a leaf;
non-leaf ids never appear in the result. -/
theorem C1_descendant_resolver_exact (nodes : List TreeNode) (rank : Int → Nat)
    (fuel : Nat) (r : Int)
    (hnd : (nodes.map TreeNode.ID).Nodup)
    (hacyc : ∀ c ∈ nodes, ∀ p ∈ nodes, c.Pid = p.ID → rank c.ID < rank p.ID)
    (hleaf : ∀ p ∈ nodes, p.IsLeaf = 1 → ∀ c ∈ nodes, c.Pid ≠ p.ID)
    (hpos : 0 < fuel) (hfuel : ∀ n ∈ nodes, rank n.ID < fuel) :
    ∃ s, getChildrenTreeNodeIds nodes r fuel = some s ∧
      ∀ i, i ∈ s ↔ (SpecReach nodes r i ∧ SpecIsLeafId nodes i) := by
  obtain ⟨s, hs, hchar⟩ := dfs_spec nodes rank hnd hacyc hleaf fuel r ∅ hpos
    (fun n hn hne => hne ▸ hfuel n hn)
  refine ⟨s, hs, fun i => ?_⟩
  rw [hchar i]
  simp

/-- Example node set of §8 of the spec: a non-leaf root 1 with leaf
children 2 and 3. -/
def exNodes : List TreeNode := [⟨1, 0, 1, 0, []⟩, ⟨2, 1, 2, 1, []⟩, ⟨3, 1, 2, 1, []⟩]

/-- Acyclicity certificate for `exNodes`: the root has rank 1, leaves rank 0. -/
def exRank : Int → Nat := fun i => if i = 1 then 1 else 0

/-- Witness for C1 at the spec's example node set. -/
theorem C1_witness :
    ∃ s, getChildrenTreeNodeIds exNodes 1 2 = some s ∧
      ∀ i, i ∈ s ↔ (SpecReach exNodes 1 i ∧ SpecIsLeafId exNodes i) :=
  C1_descendant_resolver_exact exNodes exRank 2 1 (by decide) (by decide) (by decide)
    (by decide) (by decide)

/-- A single-node set whose node is flagged non-leaf and has no children:
data the resolver accepts but where the claimed emptiness equivalence of
C4 fails. -/
def lonelyInternal : List TreeNode := [⟨1, 0, 1, 0, []⟩]

/-- C4 counterexample: on `lonelyInternal` the root id 1 is present in the
node set, yet the resolver returns the empty set — so emptiness of the
result is not equivalent to absence of the root on arbitrary node sets. -/
theorem C4_counterexample :
    getChildrenTreeNodeIds lonelyInternal 1 2 = some ∅ ∧ ∃ n ∈ lonelyInternal, n.ID = 1 :=
  ⟨rfl, by decide⟩

theorem exists_reachable_leaf (nodes : List TreeNode) (rank : Int → Nat)
    (hacyc : ∀ c ∈ nodes, ∀ p ∈ nodes, c.Pid = p.ID → rank c.ID < rank p.ID)
    (hchild : ∀ n ∈ nodes, n.IsLeaf ≠ 1 → ∃ c ∈ nodes, c.Pid = n.ID) :
    ∀ n ∈ nodes, ∃ i, SpecReach nodes n.ID i ∧ SpecIsLeafId nodes i := by
  have main : ∀ k, ∀ n ∈ nodes, rank n.ID < k →
      ∃ i, SpecReach nodes n.ID i ∧ SpecIsLeafId nodes i := by
    intro k
    induction k with
    | zero => intro n _ h; omega
    | succ k ihk =>
      intro n hn hlt
      by_cases hl : n.IsLeaf = 1
      · exact ⟨n.ID, SpecReach.refl n.ID, n, hn, rfl, hl⟩
      · obtain ⟨c, hc, hcp⟩ := hchild n hn hl
        have hrc : rank c.ID < rank n.ID := hacyc c hc n hn hcp
        obtain ⟨i, hri, hli⟩ := ihk c hc (by omega)
        refine ⟨i, ?_, hli⟩
        have h1 : SpecReach nodes n.ID c.ID :=
          SpecReach.step c (SpecReach.refl n.ID) ⟨n, hn, rfl⟩ hc hcp
        exact h1.trans hri
  exact fun n hn => main (rank n.ID + 1) n hn (by omega)

/-- C4 (amended): on node sets whose leaf flags are well-formed in both
directions — leaves have no children and every non-leaf node has at least
one child — and whose parent links are acyclic with distinct ids, the
resolver's result is empty exactly when the root id is absent from the
node set.  (The unrestricted claim fails: see the counterexample with a
childless node flagged non-leaf.) -/
theorem C4_empty_iff_absent (nodes : List TreeNode) (rank : Int → Nat)
    (fuel : Nat) (r : Int)
    (hnd : (nodes.map TreeNode.ID).Nodup)
    (hacyc : ∀ c ∈ nodes, ∀ p ∈ nodes, c.Pid = p.ID → rank c.ID < rank p.ID)
    (hleaf : ∀ p ∈ nodes, p.IsLeaf = 1 → ∀ c ∈ nodes, c.Pid ≠ p.ID)
    (hchild : ∀ n ∈ nodes, n.IsLeaf ≠ 1 → ∃ c ∈ nodes, c.Pid = n.ID)
    (hpos : 0 < fuel) (hfuel : ∀ n ∈ nodes, rank n.ID < fuel) :
    ∃ s, getChildrenTreeNodeIds nodes r fuel = some s ∧
      (s = ∅ ↔ ¬ ∃ n ∈ nodes, n.ID = r) := by
  obtain ⟨s, hs, hchar⟩ := dfs_spec nodes rank hnd hacyc hleaf fuel r ∅ hpos
    (fun n hn hne => hne ▸ hfuel n hn)
  refine ⟨s, hs, ?_, ?_⟩
  · rintro hse ⟨n, hn, hne⟩
    obtain ⟨i, hri, hli⟩ := exists_reachable_leaf nodes rank hacyc hchild n hn
    have hmem : i ∈ s := (hchar i).mpr (Or.inr ⟨hne ▸ hri, hli⟩)
    rw [hse] at hmem
    exact absurd hmem (Finset.not_mem_empty i)
  · intro habs
    refine Finset.eq_empty_iff_forall_not_mem.mpr fun i hi => ?_
    rcases (hchar i).mp hi with h | ⟨hr, m, hm, hmi, _⟩
    · exact absurd h (Finset.not_mem_empty i)
    · exact habs ⟨m, hm, hmi.trans (hr.of_absent fun n hn hne => habs ⟨n, hn, hne⟩)⟩

/-- Witness for the amended C4 at the spec's example node set. -/
theorem C4_witness :
    ∃ s, getChildrenTreeNodeIds exNodes 1 2 = some s ∧
      (s = ∅ ↔ ¬ ∃ n ∈ exNodes, n.ID = 1) :=
  C4_empty_iff_absent exNodes exRank 2 1 (by decide) (by decide) (by decide) (by decide)
    (by decide) (by decide)

/-- Two non-leaf nodes that are each other's parent: a parent-child cycle
violating the single-parent/acyclicity invariant. -/
def cycNodes : List TreeNode := [⟨1, 2, 1, 0, []⟩, ⟨2, 1, 1, 0, []⟩]

theorem dfsFuel_cyc_none : ∀ (f : Nat) (acc : Finset Int),
    dfsFuel cycNodes f 1 acc = none ∧ dfsFuel cycNodes f 2 acc = none := by
  intro f
  induction f with
  | zero => exact fun _ => ⟨rfl, rfl⟩
  | succ f ihf =>
    intro acc
    constructor
    · have h1 : dfsFuel cycNodes (f + 1) 1 acc =
          ((some acc).bind fun a => dfsFuel cycNodes f 2 a) := rfl
      rw [h1]
      simpa using (ihf acc).2
    · have h2 : dfsFuel cycNodes (f + 1) 2 acc =
          ((some acc).bind fun a => dfsFuel cycNodes f 1 a) := rfl
      rw [h2]
      simpa using (ihf acc).1

/-- C9 counterexample: on the cyclic node set the dfs of
`getChildrenTreeNodeIds` exhausts every recursion-depth bound — the Go
recursion, which has no revisit guard, never terminates there. -/
theorem C9_counterexample :
    ¬ ∃ (fuel : Nat) (s : Finset Int), getChildrenTreeNodeIds cycNodes 1 fuel = some s := by
  rintro ⟨fuel, s, hs⟩
  have hnone := (dfsFuel_cyc_none fuel ∅).1
  rw [show getChildrenTreeNodeIds cycNodes 1 fuel = dfsFuel cycNodes fuel 1 ∅ from rfl,
    hnone] at hs
  exact Option.noConfusion hs

/-- C9 (amended): the traversal terminates on every node set satisfying the
single-parent/acyclicity invariant (witnessed by a parent-to-child
decreasing rank), given recursion depth beyond every rank; it is not
cycle-safe on data violating the invariant (see the counterexample). -/
theorem C9_terminates_on_acyclic (nodes : List TreeNode) (rank : Int → Nat)
    (fuel : Nat) (r : Int)
    (hnd : (nodes.map TreeNode.ID).Nodup)
    (hacyc : ∀ c ∈ nodes, ∀ p ∈ nodes, c.Pid = p.ID → rank c.ID < rank p.ID)
    (hleaf : ∀ p ∈ nodes, p.IsLeaf = 1 → ∀ c ∈ nodes, c.Pid ≠ p.ID)
    (hpos : 0 < fuel) (hfuel : ∀ n ∈ nodes, rank n.ID < fuel) :
    ∃ s, getChildrenTreeNodeIds nodes r fuel = some s := by
  obtain ⟨s, hs, -⟩ := dfs_spec nodes rank hnd hacyc hleaf fuel r ∅ hpos
    (fun n hn hne => hne ▸ hfuel n hn)
  exact ⟨s, hs⟩

/-- Witness for the amended C9 at the spec's example node set. -/
theorem C9_witness : ∃ s, getChildrenTreeNodeIds exNodes 2 2 = some s :=
  C9_terminates_on_acyclic exNodes exRank 2 2 (by decide) (by decide) (by decide)
    (by decide) (by decide)

/-- The first pass of `ListTreeNodes` (handler.go:672-683): nodes with
`Pid == 0` become top-level roots, in input order. -/
def topNodes (nodes : List TreeNode) : List TreeNode :=
  nodes.filter (fun n => n.Pid == 0)

/-- The `childrenMap` of `ListTreeNodes` (handler.go:681) after the second
pass (handler.go:686-690): only non-root nodes are recorded, keyed by their
`Pid`, so the node with id `id` gets attached exactly this child list. -/
def builderChildren (nodes : List TreeNode) (id : Int) : List TreeNode :=
  nodes.filter (fun n => !(n.Pid == 0) && n.Pid == id)

/-- Every placement of a node in the forest built by `ListTreeNodes`: the
root list followed by the children list attached to each node. -/
def treeForest (nodes : List TreeNode) : List TreeNode :=
  topNodes nodes ++ nodes.flatMap (fun n => builderChildren nodes n.ID)

/-- C2 as claimed, for an arbitrary node set: every node of the input
appears exactly once in the built forest — once in the root list or once
in exactly one parent's children list. -/
def treeBuilderPlacesOnce (nodes : List TreeNode) : Prop :=
  ∀ x ∈ nodes, (treeForest nodes).count x = 1

/-- C2 counterexample: an orphan node (its `Pid` is 5, and no node has id
5) is neither a root nor attached to any parent, so it appears zero times
in the built forest. -/
theorem C2_counterexample : ¬ treeBuilderPlacesOnce [⟨2, 5, 2, 1, []⟩] := by
  simp only [treeBuilderPlacesOnce]
  decide

theorem count_filter_eq {α : Type} [DecidableEq α] (p : α → Bool) (l : List α) (x : α) :
    (l.filter p).count x = if p x then l.count x else 0 := by
  by_cases hpx : p x
  · rw [if_pos hpx]
    exact List.count_filter hpx
  · rw [if_neg hpx]
    refine List.count_eq_zero.mpr fun hmem => ?_
    exact hpx (List.of_mem_filter hmem)

theorem sum_indicator_eq_count (l : List TreeNode) (v : Int) :
    (l.map fun n => if v = n.ID then 1 else 0).sum = (l.map TreeNode.ID).count v := by
  induction l with
  | nil => simp
  | cons a l ihl =>
    simp only [List.map_cons, List.sum_cons, List.count_cons, ihl, beq_iff_eq]
    split_ifs <;> omega

/-- C2 (amended): on node sets with distinct ids in which every non-root
node's parent link references an existing node, the forest built by
`ListTreeNodes` places every node exactly once — as a root when `Pid == 0`,
otherwise in exactly one parent's children list.  (Unrestricted, the claim
fails: an orphan node is dropped, see the counterexample.) -/
theorem C2_forest_places_each_node_once (nodes : List TreeNode)
    (hnd : (nodes.map TreeNode.ID).Nodup)
    (hpar : ∀ n ∈ nodes, n.Pid ≠ 0 → ∃ p ∈ nodes, p.ID = n.Pid) :
    treeBuilderPlacesOnce nodes := by
  intro x hx
  have hxnd : nodes.Nodup := hnd.of_map
  have hc1 : nodes.count x = 1 := List.count_eq_one_of_mem hxnd hx
  rw [treeForest, List.count_append]
  by_cases hxp : x.Pid = 0
  · have htop : (topNodes nodes).count x = 1 := by
      rw [topNodes, count_filter_eq]
      simp [hxp, hc1]
    have hflat : (nodes.flatMap fun n => builderChildren nodes n.ID).count x = 0 := by
      rw [List.count_flatMap]
      have hzero : ∀ n ∈ nodes, (List.count x ∘ fun n => builderChildren nodes n.ID) n = 0 := by
        intro n _
        simp only [Function.comp_apply, builderChildren, count_filter_eq]
        simp [hxp]
      rw [List.map_congr_left hzero]
      simp
    omega
  · have htop : (topNodes nodes).count x = 0 := by
      rw [topNodes, count_filter_eq]
      simp [hxp]
    have hflat : (nodes.flatMap fun n => builderChildren nodes n.ID).count x = 1 := by
      rw [List.count_flatMap]
      have hterm : ∀ n ∈ nodes, (List.count x ∘ fun n => builderChildren nodes n.ID) n =
          if x.Pid = n.ID then 1 else 0 := by
        intro n _
        simp only [Function.comp_apply, builderChildren, count_filter_eq]
        by_cases hpid : x.Pid = n.ID
        · have hn0 : ¬ n.ID = 0 := fun h => hxp (hpid.trans h)
          simp [hpid, hn0, hc1]
        · simp [hpid]
      rw [List.map_congr_left hterm, sum_indicator_eq_count]
      obtain ⟨p, hp, hpid⟩ := hpar x hx hxp
      refine List.count_eq_one_of_mem hnd ?_
      exact List.mem_map.mpr ⟨p, hp, hpid⟩
    omega

/-- Witness for the amended C2 at the spec's example node set. -/
theorem C2_witness : treeBuilderPlacesOnce exNodes :=
  C2_forest_places_each_node_once exNodes (by decide) (by decide)

/-- Modelled from the spec: the Node Store is a persistence-backed
repository (§6) represented as the list of stored nodes; `GetByID` resolves
an id to its node, absent ids resolving to nothing. -/
def nodeGetByID (nodes : List TreeNode) (id : Int) : Option TreeNode :=
  nodes.find? (fun n => n.ID == id)

/-- Modelled from the spec: the Node Store's `HasChildren` — whether any
stored node has the given id as its parent. -/
def nodeHasChildren (nodes : List TreeNode) (id : Int) : Bool :=
  nodes.any (fun n => n.Pid == id)

/-- Modelled from the spec: the Node Store's `Delete` removes the record
with the given id. -/
def nodeDelete (nodes : List TreeNode) (id : Int) : List TreeNode :=
  nodes.filter (fun n => !(n.ID == id))

/-- Modelled from the spec: the Node Store's `Create` persists the new
record. -/
def nodeCreate (nodes : List TreeNode) (obj : TreeNode) : List TreeNode :=
  nodes ++ [obj]

inductive CreateNodeError where
  | parentNotFound
  | levelExceeded
  | parentIsLeaf
deriving DecidableEq

/-- `CreateTreeNode` (handler.go:758-794): a root request (`Pid == 0` and
`Level == 1`) is stored directly; otherwise the parent is fetched (absence
fails), a level strictly above `parent.Level + 1` (the Go check is
`obj.Level >= node.Level+2`) fails, a leaf parent fails, and otherwise the
node is stored.  The result pairs the error, if any, with the store after
the call. -/
def CreateTreeNode (nodes : List TreeNode) (obj : TreeNode) :
    Option CreateNodeError × List TreeNode :=
  if obj.Pid == 0 && obj.Level == 1 then (none, nodeCreate nodes obj)
  else
    match nodeGetByID nodes obj.Pid with
    | none => (some .parentNotFound, nodes)
    | some node =>
      if obj.Level ≥ node.Level + 2 then (some .levelExceeded, nodes)
      else if node.IsLeaf == 1 then (some .parentIsLeaf, nodes)
      else (none, nodeCreate nodes obj)

inductive DeleteNodeError where
  | notFound
  | hasChildren
deriving DecidableEq

/-- `DeleteTreeNode` (handler.go:796-828): fetch the node (absence fails
with not-found), refuse when it has children, otherwise delete.  The
result pairs the error, if any, with the store after the call. -/
def DeleteTreeNode (nodes : List TreeNode) (id : Int) :
    Option DeleteNodeError × List TreeNode :=
  match nodeGetByID nodes id with
  | none => (some .notFound, nodes)
  | some _ =>
    if nodeHasChildren nodes id then (some .hasChildren, nodes)
    else (none, nodeDelete nodes id)

/-- C5: for every non-root create request whose parent exists and is not a
leaf, `CreateTreeNode` fails with the level-exceeded error exactly when the
new node's `Level` is strictly greater than `parent.Level + 1`, and stores
the node for every `Level` up to and including `parent.Level + 1`. -/
theorem C5_level_check_boundary (nodes : List TreeNode) (obj node : TreeNode)
    (hpid : obj.Pid ≠ 0)
    (hfind : nodeGetByID nodes obj.Pid = some node)
    (hnl : node.IsLeaf ≠ 1) :
    ((CreateTreeNode nodes obj).1 = some .levelExceeded ↔ obj.Level > node.Level + 1) ∧
    (obj.Level ≤ node.Level + 1 → CreateTreeNode nodes obj = (none, nodes ++ [obj])) := by
  have hroot : (obj.Pid == 0 && obj.Level == 1) = false := by
    simp [hpid]
  constructor
  · rw [CreateTreeNode, hroot]
    simp only [Bool.false_eq_true, if_false, hfind]
    by_cases hlvl : obj.Level ≥ node.Level + 2
    · simp only [if_pos hlvl]
      constructor
      · intro _; omega
      · intro _; trivial
    · simp only [if_neg hlvl]
      constructor
      · intro h
        by_cases hleafp : node.IsLeaf == 1
        · rw [if_pos hleafp] at h
          exact absurd (Option.some.inj h) (by simp)
        · rw [if_neg hleafp] at h
          exact absurd h (by simp)
      · intro h; omega
  · intro hle
    rw [CreateTreeNode, hroot]
    simp only [Bool.false_eq_true, if_false, hfind]
    rw [if_neg (by omega), if_neg (by simpa using hnl)]
    rfl

/-- Witness for C5: under root 1 (level 1, non-leaf), a child at level 2 is
stored and claiming level 3 would be the first rejected level. -/
theorem C5_witness :
    ((CreateTreeNode exNodes ⟨4, 1, 2, 1, []⟩).1 = some .levelExceeded ↔ (2 : Int) > 1 + 1) ∧
    ((2 : Int) ≤ 1 + 1 →
      CreateTreeNode exNodes ⟨4, 1, 2, 1, []⟩ = (none, exNodes ++ [⟨4, 1, 2, 1, []⟩])) :=
  C5_level_check_boundary exNodes ⟨4, 1, 2, 1, []⟩ ⟨1, 0, 1, 0, []⟩ (by decide) (by decide)
    (by decide)

/-- C6: deleting an existing node with at least one child fails with the
has-children error and leaves the store untouched; deleting an existing
childless node removes exactly that node; deleting an absent id fails with
the not-found error and leaves the store untouched. -/
theorem C6_delete_node_guard (nodes : List TreeNode) (id : Int) :
    ((∃ n ∈ nodes, n.ID = id) → (∃ c ∈ nodes, c.Pid = id) →
        DeleteTreeNode nodes id = (some .hasChildren, nodes)) ∧
    ((∃ n ∈ nodes, n.ID = id) → (∀ c ∈ nodes, c.Pid ≠ id) →
        DeleteTreeNode nodes id = (none, nodes.filter (fun n => !(n.ID == id)))) ∧
    ((∀ n ∈ nodes, n.ID ≠ id) → DeleteTreeNode nodes id = (some .notFound, nodes)) := by
  refine ⟨?_, ?_, ?_⟩
  · rintro ⟨n, hn, hnid⟩ ⟨c, hc, hcp⟩
    obtain ⟨m, hm⟩ : ∃ m, nodeGetByID nodes id = some m := by
      cases hfind : nodeGetByID nodes id with
      | some m => exact ⟨m, rfl⟩
      | none =>
        rw [nodeGetByID, List.find?_eq_none] at hfind
        exact absurd (by simpa using hnid) (hfind n hn)
    have hch : nodeHasChildren nodes id = true := by
      rw [nodeHasChildren, List.any_eq_true]
      exact ⟨c, hc, by simpa using hcp⟩
    rw [DeleteTreeNode, hm, if_pos hch]
  · rintro ⟨n, hn, hnid⟩ hnoc
    obtain ⟨m, hm⟩ : ∃ m, nodeGetByID nodes id = some m := by
      cases hfind : nodeGetByID nodes id with
      | some m => exact ⟨m, rfl⟩
      | none =>
        rw [nodeGetByID, List.find?_eq_none] at hfind
        exact absurd (by simpa using hnid) (hfind n hn)
    have hch : nodeHasChildren nodes id = false := by
      rw [nodeHasChildren]
      simp only [List.any_eq_false]
      intro c hc
      simpa using hnoc c hc
    rw [DeleteTreeNode, hm, if_neg (by simp [hch]), nodeDelete]
  · intro habs
    have hfind : nodeGetByID nodes id = none := by
      rw [nodeGetByID, List.find?_eq_none]
      intro n hn
      simpa using habs n hn
    rw [DeleteTreeNode, hfind]

/-- Witness for C6: on the spec's example store, deleting the root (which
has children) fails and changes nothing, deleting leaf 3 removes exactly
it, and deleting absent id 9 reports not-found. -/
theorem C6_witness :
    DeleteTreeNode exNodes 1 = (some .hasChildren, exNodes) ∧
    DeleteTreeNode exNodes 3 = (none, exNodes.filter (fun n => !(n.ID == 3))) ∧
    DeleteTreeNode exNodes 9 = (some .notFound, exNodes) :=
  ⟨(C6_delete_node_guard exNodes 1).1 (by decide) (by decide),
   (C6_delete_node_guard exNodes 3).2.1 (by decide) (by decide),
   (C6_delete_node_guard exNodes 9).2.2 (by decide)⟩

/-- `model.ResourceTree`, restricted to the identity the tree service
reads (`n.ID` of bound nodes is compared against the scope set; the
payload fields are opaque to the claims). -/
structure ResourceTree where
  ID : Int
deriving DecidableEq

/-- `model.ResourceEcs`: the embedded `ResourceTree` record plus the bound
tree-node references, of which the service only reads the id. -/
structure ResourceEcs where
  tree : ResourceTree
  BindNodes : List Int
deriving DecidableEq

inductive DeleteEcsError where
  | notFound
  | resourceBound
deriving DecidableEq

/-- Modelled from the spec: the ECS Resource Store's `GetByID` — "fetch
resource; fails with NotFound if absent" (§4.5); the DAO implementation is
not among the sources, so an absent id yields the `ErrResourceNotFound`
sentinel that `DeleteEcsResource` tests with `errors.Is`. -/
def ecsGetByID (store : List ResourceEcs) (id : Int) : Option ResourceEcs :=
  store.find? (fun e => e.tree.ID == id)

/-- Modelled from the spec: the ECS Resource Store's `Delete` removes the
record with the given id. -/
def ecsDelete (store : List ResourceEcs) (id : Int) : List ResourceEcs :=
  store.filter (fun e => !(e.tree.ID == id))

/-- `DeleteEcsResource` (handler.go:1215-1241): fetch the resource (the
not-found sentinel from the store is surfaced as not-found), refuse when
`len(resource.BindNodes) > 0` with `ErrResourceBound`, otherwise delete.
The result pairs the error, if any, with the store after the call. -/
def DeleteEcsResource (store : List ResourceEcs) (id : Int) :
    Option DeleteEcsError × List ResourceEcs :=
  match ecsGetByID store id with
  | none => (some .notFound, store)
  | some resource =>
    if resource.BindNodes.length > 0 then (some .resourceBound, store)
    else (none, ecsDelete store id)

/-- C7: deleting an ECS resource with at least one bound node fails with
the resource-bound error, leaves the store untouched, and the resource is
still queryable afterward; deleting an existing resource with no bound
nodes removes it; deleting an absent id fails with the not-found error. -/
theorem C7_delete_ecs_guard (store : List ResourceEcs) (id : Int) :
    (∀ e, ecsGetByID store id = some e → e.BindNodes ≠ [] →
        DeleteEcsResource store id = (some .resourceBound, store) ∧
        ecsGetByID (DeleteEcsResource store id).2 id = some e) ∧
    (∀ e, ecsGetByID store id = some e → e.BindNodes = [] →
        DeleteEcsResource store id = (none, store.filter (fun x => !(x.tree.ID == id)))) ∧
    ((∀ e ∈ store, e.tree.ID ≠ id) → DeleteEcsResource store id = (some .notFound, store)) := by
  refine ⟨?_, ?_, ?_⟩
  · intro e hfind hbound
    have hlen : e.BindNodes.length > 0 := by
      cases hb : e.BindNodes with
      | nil => exact absurd hb hbound
      | cons a l => simp [hb]
    have heq : DeleteEcsResource store id = (some .resourceBound, store) := by
      simp only [DeleteEcsResource, hfind, if_pos hlen]
    exact ⟨heq, by rw [heq]; exact hfind⟩
  · intro e hfind hunbound
    simp only [DeleteEcsResource, hfind, ecsDelete]
    rw [if_neg (by simp [hunbound])]
  · intro habs
    have hfind : ecsGetByID store id = none := by
      rw [ecsGetByID, List.find?_eq_none]
      intro e he
      simpa using habs e he
    rw [DeleteEcsResource, hfind]

/-- Example ECS store: resource 1 bound to node 2 (the spec's §8 example),
resource 7 bound to nothing. -/
def exEcsStore : List ResourceEcs := [⟨⟨1⟩, [2]⟩, ⟨⟨7⟩, []⟩]

/-- Witness for C7 on the example ECS store: deleting bound resource 1
fails with resource-bound and it stays queryable, deleting unbound
resource 7 removes it, and deleting absent id 9 reports not-found. -/
theorem C7_witness :
    (DeleteEcsResource exEcsStore 1 = (some .resourceBound, exEcsStore) ∧
      ecsGetByID (DeleteEcsResource exEcsStore 1).2 1 = some ⟨⟨1⟩, [2]⟩) ∧
    DeleteEcsResource exEcsStore 7 = (none, exEcsStore.filter (fun x => !(x.tree.ID == 7))) ∧
    DeleteEcsResource exEcsStore 9 = (some .notFound, exEcsStore) :=
  ⟨(C7_delete_ecs_guard exEcsStore 1).1 ⟨⟨1⟩, [2]⟩ (by decide) (by decide),
   (C7_delete_ecs_guard exEcsStore 7).2.1 ⟨⟨7⟩, []⟩ (by decide) (by decide),
   (C7_delete_ecs_guard exEcsStore 9).2.2 (by decide)⟩

/-- The pagination step of `GetAllResourcesByType` (handler.go:1059-1070):
`offset := (page-1)*size`; an offset at or past the end yields an empty
page rather than an error; the upper bound is clamped to the available
length.  Generic in the element type; the source instantiates it at
`[]*model.ResourceTree`. -/
def paginate {α : Type} (l : List α) (page size : Int) : List α :=
  let offset := (page - 1) * size
  if (l.length : Int) ≤ offset then []
  else
    let e := min (offset + size) (l.length : Int)
    (l.drop offset.toNat).take (e - offset).toNat

/-- Number of pages of size `size` covering `total` elements (the ceiling
of `total / size`). -/
def numPages (total : Nat) (size : Int) : Nat :=
  (total + size.toNat - 1) / size.toNat

theorem paginate_nil {α : Type} (page size : Int) :
    paginate ([] : List α) page size = [] := by
  simp only [paginate]
  split_ifs <;> simp

theorem paginate_one {α : Type} (l : List α) (k : Int) (hk : 0 < k) :
    paginate l 1 k = l.take k.toNat := by
  simp only [paginate, show ((1 : Int) - 1) * k = 0 by ring, zero_add, Int.toNat_zero,
    List.drop_zero, sub_zero]
  by_cases hlen : (l.length : Int) ≤ 0
  · rw [if_pos hlen]
    have hnil : l = [] := List.length_eq_zero.mp (by omega)
    rw [hnil]
    simp
  · rw [if_neg hlen]
    rcases le_or_lt k (l.length : Int) with h | h
    · rw [min_eq_left h]
    · rw [min_eq_right h.le, Int.toNat_natCast, List.take_length,
        List.take_of_length_le (by omega)]

theorem paginate_succ {α : Type} (l : List α) (k : Int) (hk : 0 < k) (i : Nat) :
    paginate l ((i : Int) + 2) k = paginate (l.drop k.toNat) ((i : Int) + 1) k := by
  have hkn : (k.toNat : Int) = k := Int.toNat_of_nonneg hk.le
  have hm0 : (0 : Int) ≤ (i : Int) * k := mul_nonneg (Int.natCast_nonneg i) hk.le
  simp only [paginate, List.length_drop,
    show ((i : Int) + 2 - 1) * k = (i : Int) * k + k by ring,
    show ((i : Int) + 1 - 1) * k = (i : Int) * k by ring]
  set m : Int := (i : Int) * k with hm
  by_cases h1 : (l.length : Int) ≤ m + k
  · rw [if_pos h1, if_pos (by omega)]
  · rw [if_neg h1, if_neg (by omega), List.drop_drop,
      show k.toNat + m.toNat = (m + k).toNat by omega]
    congr 1
    omega

theorem numPages_nil (k : Int) : numPages 0 k = 0 := by
  unfold numPages
  cases hkn : k.toNat with
  | zero => simp
  | succ j => exact Nat.div_eq_of_lt (by omega)

theorem numPages_succ (total : Nat) (k : Int) (hk : 0 < k) (ht : 0 < total) :
    numPages total k = numPages (total - k.toNat) k + 1 := by
  have hkn : 0 < k.toNat := by omega
  unfold numPages
  rcases le_or_lt k.toNat total with h | h
  · rw [show total + k.toNat - 1 = ((total - k.toNat) + k.toNat - 1) + k.toNat by omega,
      Nat.add_div_right _ hkn]
  · rw [show total - k.toNat = 0 by omega]
    rw [show (total + k.toNat - 1) / k.toNat = 1 from
      Nat.div_eq_of_lt_le (by omega) (by omega)]
    rw [show (0 + k.toNat - 1) / k.toNat = 0 from Nat.div_eq_of_lt (by omega)]

theorem pages_concat {α : Type} (k : Int) (hk : 0 < k) (l : List α) :
    ((List.range (numPages l.length k)).map (fun i : Nat => paginate l ((i : Int) + 1) k)).flatten
      = l := by
  have general : ∀ (n : Nat) (l : List α), l.length ≤ n →
      ((List.range (numPages l.length k)).map
          (fun i : Nat => paginate l ((i : Int) + 1) k)).flatten = l := by
    intro n
    induction n with
    | zero =>
      intro l hl
      have hnil : l = [] := List.length_eq_zero.mp (by omega)
      subst hnil
      simp [numPages_nil k]
    | succ n ihn =>
      intro l hl
      rcases eq_or_ne l [] with rfl | hne
      · simp [numPages_nil k]
      · have hlpos : 0 < l.length := List.length_pos.mpr hne
        rw [numPages_succ l.length k hk hlpos, List.range_succ_eq_map, List.map_cons,
          List.flatten_cons, List.map_map]
        have hhead : paginate l (((0 : Nat) : Int) + 1) k = l.take k.toNat := by
          simpa using paginate_one l k hk
        rw [hhead]
        have htail : ∀ i ∈ List.range (numPages (l.length - k.toNat) k),
            ((fun i : Nat => paginate l ((i : Int) + 1) k) ∘ Nat.succ) i
              = paginate (l.drop k.toNat) ((i : Int) + 1) k := by
          intro i _
          simp only [Function.comp_apply]
          rw [show ((Nat.succ i : Nat) : Int) + 1 = (i : Int) + 2 by push_cast; ring,
            paginate_succ l k hk i]
        rw [List.map_congr_left htail]
        have hlen2 : (l.drop k.toNat).length ≤ n := by
          rw [List.length_drop]
          omega
        have hrec := ihn (l.drop k.toNat) hlen2
        rw [List.length_drop] at hrec
        rw [hrec, List.take_append_drop]
  exact general l.length l le_rfl

/-- `getChildrenTreeNodeIds` with its store fetch (handler.go:967-972): a
fetch failure is logged and the nil map — i.e. the empty id set — is
returned; the error itself is not propagated to the caller. -/
def getChildrenTreeNodeIdsSvc (fetch : Except Unit (List TreeNode)) (nid : Int) (fuel : Nat) :
    Option (Finset Int) :=
  match fetch with
  | .error _ => some ∅
  | .ok nodes => dfsFuel nodes fuel nid ∅

/-- The filter pass of `GetAllResourcesByType` (handler.go:1019-1026): keep
each resource one of whose bound node ids lies in the scope set — the inner
Go loop breaks on the first match, which `List.any` mirrors — and collect
the embedded `ResourceTree` records in input order. -/
def scopedEcsResources (m : Finset Int) (ecs : List ResourceEcs) : List ResourceTree :=
  (ecs.filter (fun e => e.BindNodes.any (fun nid => decide (nid ∈ m)))).map ResourceEcs.tree

/-- `GetAllResourcesByType` (handler.go:1005-1071) for the `ecs` branch
(the `elb` and `rds` branches are verbatim copies over their stores):
compute the scope id set, fetch all resources of the type (propagating a
fetch failure), filter by scope and paginate.  The outer `none` models a
non-terminating scope traversal, during which the call never returns. -/
def GetAllResourcesByTypeEcs (nodeFetch : Except Unit (List TreeNode))
    (ecsFetch : Except Unit (List ResourceEcs)) (nid : Int) (page size : Int) (fuel : Nat) :
    Option (Except Unit (List ResourceTree)) :=
  match getChildrenTreeNodeIdsSvc nodeFetch nid fuel with
  | none => none
  | some nodeIdsMap =>
    match ecsFetch with
    | .error e => some (.error e)
    | .ok ecs => some (.ok (paginate (scopedEcsResources nodeIdsMap ecs) page size))

/-- C3 counterexample: with the node-set fetch failing and a bound ECS
resource present, `GetAllResourcesByType` completes with a success result
(an empty page) instead of surfacing the fetch failure to its caller. -/
theorem C3_counterexample :
    GetAllResourcesByTypeEcs (Except.error ()) (Except.ok [⟨⟨1⟩, [2]⟩]) 2 1 10 1
      = some (Except.ok []) := rfl

/-- C3 (amended): a node-set fetch failure during scoped resource
aggregation is swallowed, not surfaced — the resolver returns the empty id
set and `GetAllResourcesByType` completes without error, with an empty
page, whenever the resource fetch succeeds; only a resource-fetch failure
is propagated. -/
theorem C3_fetch_error_swallowed (ecsFetch : Except Unit (List ResourceEcs))
    (nid page size : Int) (fuel : Nat) :
    getChildrenTreeNodeIdsSvc (Except.error ()) nid fuel = some ∅ ∧
    GetAllResourcesByTypeEcs (Except.error ()) ecsFetch nid page size fuel =
      some (match ecsFetch with
        | Except.ok _ => Except.ok []
        | Except.error e => Except.error e) := by
  refine ⟨rfl, ?_⟩
  cases ecsFetch with
  | error e => rfl
  | ok ecs =>
    show some (Except.ok (paginate (scopedEcsResources ∅ ecs) page size))
      = some (Except.ok [])
    have hscope : scopedEcsResources ∅ ecs = [] := by
      unfold scopedEcsResources
      rw [List.filter_eq_nil_iff.mpr (fun e _ => by simp)]
      rfl
    rw [hscope, paginate_nil]

/-- C8: scoped resource aggregation is stable under pagination — every page
of `GetAllResourcesByType` is the corresponding window of the scoped
unpaginated result, the pages `1..ceil(total/k)` concatenate to exactly
that result (each element once), and any page whose offset lies at or
beyond the end yields an empty page with no error. -/
theorem C8_pagination_stable (nodeFetch : Except Unit (List TreeNode))
    (ecs : List ResourceEcs) (nid : Int) (fuel : Nat) (m : Finset Int) (k : Int)
    (hm : getChildrenTreeNodeIdsSvc nodeFetch nid fuel = some m) (hk : 0 < k) :
    (∀ page : Int, GetAllResourcesByTypeEcs nodeFetch (Except.ok ecs) nid page k fuel =
        some (Except.ok (paginate (scopedEcsResources m ecs) page k))) ∧
    ((List.range (numPages (scopedEcsResources m ecs).length k)).map
        (fun i : Nat => paginate (scopedEcsResources m ecs) ((i : Int) + 1) k)).flatten
      = scopedEcsResources m ecs ∧
    (∀ page : Int, ((scopedEcsResources m ecs).length : Int) ≤ (page - 1) * k →
        GetAllResourcesByTypeEcs nodeFetch (Except.ok ecs) nid page k fuel =
          some (Except.ok [])) := by
  have hpage : ∀ page : Int,
      GetAllResourcesByTypeEcs nodeFetch (Except.ok ecs) nid page k fuel =
        some (Except.ok (paginate (scopedEcsResources m ecs) page k)) := by
    intro page
    simp only [GetAllResourcesByTypeEcs, hm]
  refine ⟨hpage, pages_concat k hk _, fun page hoff => ?_⟩
  rw [hpage page]
  have hempty : paginate (scopedEcsResources m ecs) page k = [] := by
    simp only [paginate]
    rw [if_pos hoff]
  rw [hempty]

/-- Witness for C8 at the spec's example: node set `exNodes` scoped at root
1 (leaf set `{3, 2}`), ECS store `exEcsStore`, page size 1. -/
theorem C8_witness :
    (∀ page : Int,
      GetAllResourcesByTypeEcs (Except.ok exNodes) (Except.ok exEcsStore) 1 page 1 2 =
        some (Except.ok (paginate (scopedEcsResources {3, 2} exEcsStore) page 1))) ∧
    ((List.range (numPages (scopedEcsResources {3, 2} exEcsStore).length 1)).map
        (fun i : Nat => paginate (scopedEcsResources {3, 2} exEcsStore) ((i : Int) + 1) 1)).flatten
      = scopedEcsResources {3, 2} exEcsStore ∧
    (∀ page : Int, ((scopedEcsResources {3, 2} exEcsStore).length : Int) ≤ (page - 1) * 1 →
        GetAllResourcesByTypeEcs (Except.ok exNodes) (Except.ok exEcsStore) 1 page 1 2 =
          some (Except.ok [])) :=
  C8_pagination_stable (Except.ok exNodes) exEcsStore 1 2 {3, 2} 1 rfl (by decide)

/-- `ListLeafTreeNodes` (handler.go:736-756): keeps exactly the nodes whose
`BindEcs` list is non-empty — the Go loop skips nodes with
`len(node.BindEcs) == 0` and never reads `IsLeaf`. -/
def ListLeafTreeNodes (nodes : List TreeNode) : List TreeNode :=
  nodes.filter (fun n => !(n.BindEcs.length == 0))

/-- C10: `ListLeafTreeNodes` returns exactly the nodes with a non-empty
`BindEcs` list, never consulting the `IsLeaf` flag or children structure:
membership depends only on presence and on `BindEcs` being non-empty (so a
non-leaf node with a binding is included and a leaf node without bindings
is omitted), and rewriting every node's `IsLeaf` arbitrarily commutes with
the listing. -/
theorem C10_list_leaf_nodes_by_bindings (nodes : List TreeNode) :
    (∀ n, n ∈ ListLeafTreeNodes nodes ↔ n ∈ nodes ∧ n.BindEcs ≠ []) ∧
    (∀ f : TreeNode → Int,
      ListLeafTreeNodes (nodes.map (fun n => { n with IsLeaf := f n })) =
        (ListLeafTreeNodes nodes).map (fun n => { n with IsLeaf := f n })) := by
  constructor
  · intro n
    unfold ListLeafTreeNodes
    rw [List.mem_filter]
    constructor
    · rintro ⟨h1, h2⟩
      refine ⟨h1, fun hnil => ?_⟩
      rw [hnil] at h2
      simp at h2
    · rintro ⟨h1, h2⟩
      exact ⟨h1, by simp [List.length_eq_zero, h2]⟩
  · intro f
    unfold ListLeafTreeNodes
    induction nodes with
    | nil => rfl
    | cons a l ihl =>
      simp only [List.map_cons, List.filter_cons]
      by_cases h : a.BindEcs.length = 0
      · simp [h, ihl]
      · simp [h, ihl]

end AICloudOps
